import Mathlib

/-!
Verification development for the CMakeDoc documentation generator.

The repository ships a command-line entry point (main.py) that orchestrates
per-file documentation generation, and a core engine (the cmakedoc package:
block scanner, tag parser, construct associator, document model, renderer)
whose sources are not part of this tree.  The entry point is embedded from
the source; the core engine is modelled from the specification, as flagged
on each definition.

Strings are embedded as lists of characters; file-system paths as lists of
path components.
-/

abbrev Str := List Char

/-! ## Block scanner (core engine) -/

/-- Modelled from the spec: a raw documentation block span produced by the
Block Scanner, holding the start offset of the start marker, the offset just
past the end marker, and the raw inner text between the two markers. -/
structure RawBlock where
  start_offset : Nat
  end_offset : Nat
  raw_text : Str
deriving DecidableEq

/-- Modelled from the spec: the fixed three-bracket-opening start marker. -/
def startMarker : Str := ['#', '[', '[', '[']

/-- Modelled from the spec: the fixed double-bracket-closing end marker. -/
def endMarker : Str := ['#', ']', ']']

/-- Tests whether the first list is an initial segment of the second. -/
def begins : Str → Str → Bool
  | [], _ => true
  | _ :: _, [] => false
  | p :: ps, c :: cs => p == c && begins ps cs

/-- Index of the first occurrence of a pattern in a text, if any. -/
def findSub (pat : Str) : Str → Option Nat
  | [] => if begins pat [] then some 0 else none
  | c :: cs => if begins pat (c :: cs) then some 0 else (findSub pat cs).map (fun n => n + 1)

/-- Warning surfaced when a start marker has no matching end marker. -/
def unterminatedWarning : Str := "unterminated documentation block".toList

/-- Modelled from the spec: the Block Scanner loop.  Starting from `pos`,
repeatedly locate the next start marker, then the matching end marker; an
unterminated block is dropped with a warning and scanning stops at
end-of-file.  The `fuel` argument bounds the recursion by the text length. -/
def scanGo : Nat → Str → Nat → List RawBlock × List Str
  | 0, _, _ => ([], [])
  | fuel + 1, text, pos =>
    match findSub startMarker text with
    | none => ([], [])
    | some i =>
      match findSub endMarker (text.drop (i + startMarker.length)) with
      | none => ([], [unterminatedWarning])
      | some j =>
        let r := scanGo fuel ((text.drop (i + startMarker.length)).drop (j + endMarker.length))
                   (pos + i + startMarker.length + j + endMarker.length)
        (⟨pos + i, pos + i + startMarker.length + j + endMarker.length,
           (text.drop (i + startMarker.length)).take j⟩ :: r.1, r.2)

/-- Modelled from the spec: the Block Scanner applied to a whole source text,
returning the blocks in order of appearance together with surfaced warnings. -/
def scanBlocksW (text : Str) : List RawBlock × List Str :=
  scanGo (text.length + 1) text 0

/-! ### Well-formed source decompositions -/

/-- A source text assembled from gap/inner-text pairs: each pair contributes
a gap, a start marker, the inner text, and an end marker; `fin` is the text
after the last block. -/
def mkSource (bs : List (Str × Str)) (fin : Str) : Str :=
  (bs.map fun p => p.1 ++ startMarker ++ p.2 ++ endMarker).flatten ++ fin

/-- Length of one gap/inner block contribution to the source. -/
def blockLen (p : Str × Str) : Nat :=
  p.1.length + startMarker.length + p.2.length + endMarker.length

/-- Total length of all block contributions. -/
def totalLen (bs : List (Str × Str)) : Nat := (bs.map blockLen).sum

/-- The blocks the scanner is expected to yield on a well-formed source,
with offsets accumulated from `pos`. -/
def expectedBlocks : List (Str × Str) → Nat → List RawBlock
  | [], _ => []
  | (g, inr) :: rest, pos =>
    ⟨pos + g.length, pos + g.length + startMarker.length + inr.length + endMarker.length, inr⟩ ::
      expectedBlocks rest (pos + g.length + startMarker.length + inr.length + endMarker.length)

/-- No occurrence of the start marker begins inside the gap `g` when the gap
is immediately followed by a start marker. -/
def gapOkay (g : Str) : Prop :=
  ∀ k, k < g.length → begins startMarker ((g ++ startMarker).drop k) = false

/-- No occurrence of the end marker begins inside the inner text `inr` when
the inner text is immediately followed by an end marker. -/
def innerOkay (inr : Str) : Prop :=
  ∀ k, k < inr.length → begins endMarker ((inr ++ endMarker).drop k) = false

/-- Every block of the decomposition is well formed. -/
def blocksOkay (bs : List (Str × Str)) : Prop :=
  ∀ p ∈ bs, gapOkay p.1 ∧ innerOkay p.2

instance (g : Str) : Decidable (gapOkay g) := by
  unfold gapOkay; infer_instance

instance (inr : Str) : Decidable (innerOkay inr) := by
  unfold innerOkay; infer_instance

instance (bs : List (Str × Str)) : Decidable (blocksOkay bs) := by
  unfold blocksOkay; infer_instance

/-! ## Tag parser (core engine) -/

/-- Whitespace test for a character. -/
def isWSChar (c : Char) : Bool := c == ' ' || c == '\t' || c == '\r' || c == '\n'

/-- Strips leading and trailing whitespace. -/
def trimChars (l : Str) : Str :=
  ((l.dropWhile isWSChar).reverse.dropWhile isWSChar).reverse

/-- Splits a list on a separator character; the separators are consumed. -/
def splitOnChar (c : Char) : Str → List Str
  | [] => [[]]
  | x :: xs =>
    match splitOnChar c xs with
    | [] => [[]]
    | y :: ys => if x = c then [] :: y :: ys else (x :: y) :: ys

/-- Splits a text into its lines. -/
def splitLines (l : Str) : List Str := splitOnChar '\n' l

/-- Modelled from the spec: a line inside a block that is a comment
continuation has the comment marker and exactly one following space
stripped before the line is handed to the Tag Parser. -/
def stripCont (l : Str) : Str :=
  if begins ['#', ' '] l then l.drop 2
  else if l = ['#'] then []
  else l

/-- Modelled from the spec: the parameter field marker. -/
def paramMarker : Str := ":param ".toList

/-- Modelled from the spec: the return-value field marker. -/
def returnsMarker : Str := ":returns ".toList

/-- Modelled from the spec: a field tag of a documentation block: a
recognized tag name and its payload text. -/
structure FieldTag where
  tag_name : Str
  payload : Str
deriving DecidableEq

/-- Modelled from the spec: recognizes a field tag line, returning the tag
name from the fixed vocabulary and the text after the marker; unrecognized
marker-like lines are not tags. -/
def tagOf (l : Str) : Option (Str × Str) :=
  if begins paramMarker l then some ("param".toList, l.drop paramMarker.length)
  else if begins returnsMarker l then some ("returns".toList, l.drop returnsMarker.length)
  else none

/-- Emits the field accumulated so far, if any. -/
def flushAcc : Option FieldTag → List FieldTag
  | some f => [f]
  | none => []

/-- Modelled from the spec: folds the tag-section lines into fields: a tag
line starts a field, a following non-blank non-tag line is joined to the
payload with a single space, and a blank line terminates the payload. -/
def parseFields : List Str → Option FieldTag → List FieldTag
  | [], acc => flushAcc acc
  | l :: ls, acc =>
    match tagOf l with
    | some nt => flushAcc acc ++ parseFields ls (some ⟨nt.1, nt.2⟩)
    | none =>
      if l.all isWSChar then flushAcc acc ++ parseFields ls none
      else
        match acc with
        | some f => parseFields ls (some ⟨f.tag_name, f.payload ++ ' ' :: trimChars l⟩)
        | none => parseFields ls none

/-- Modelled from the spec: the per-block structured record: description,
ordered fields and the source span of the block. -/
structure DocBlock where
  description : Str
  fields : List FieldTag
  source_span : Nat × Nat
deriving DecidableEq

/-- Modelled from the spec: the Tag Parser: continuation markers are
stripped from the raw lines, the lines before the first tag line form the
description, and the remaining lines are folded into fields. -/
def parseRawBlock (b : RawBlock) : DocBlock :=
  let lines := (splitLines b.raw_text).map stripCont
  let descLines := lines.takeWhile (fun l => (tagOf l).isNone)
  ⟨trimChars (List.intercalate ['\n'] descLines),
   parseFields (lines.dropWhile (fun l => (tagOf l).isNone)) none,
   (b.start_offset, b.end_offset)⟩

/-! ## Construct associator (core engine) -/

/-- Modelled from the spec: the kind of construct a block documents. -/
inductive ConstructKind where
  | FUNCTION
  | MACRO
  | VARIABLE
  | NONE
deriving DecidableEq

/-- Modelled from the spec: a construct signature: kind, name and ordered
parameter names. -/
structure ConstructSignature where
  kind : ConstructKind
  name : Str
  parameters : List Str
deriving DecidableEq

/-- Splits on whitespace, keeping the possibly empty pieces. -/
def splitAny : Str → List Str
  | [] => [[]]
  | c :: cs =>
    match splitAny cs with
    | [] => [[]]
    | y :: ys => if isWSChar c then [] :: y :: ys else (c :: y) :: ys

/-- Splits on whitespace, dropping empty pieces. -/
def wsSplit (l : Str) : List Str := (splitAny l).filter (fun s => !s.isEmpty)

/-- A line that is blank or an ordinary comment, to be skipped between a
block and the construct it documents. -/
def isBlankOrComment (l : Str) : Bool :=
  l.all isWSChar || begins ['#'] (l.dropWhile isWSChar)

/-- Modelled from the spec: the Construct Associator: skip blank and
comment lines after the block, join the declaration up to its closing
parenthesis, and extract the keyword, name and parameter list; anything
not matching the recognized declaration grammar yields kind NONE. -/
def associate (after : Str) : ConstructSignature :=
  let ls := (splitLines after).dropWhile isBlankOrComment
  let t := List.intercalate ['\n'] ls
  match findSub [')'] t with
  | none => ⟨.NONE, [], []⟩
  | some j =>
    let decl := t.take j
    match findSub ['('] decl with
    | none => ⟨.NONE, [], []⟩
    | some k =>
      let keyword := trimChars (decl.take k)
      let args := wsSplit (decl.drop (k + 1))
      if keyword = "function".toList then ⟨.FUNCTION, args.headD [], args.drop 1⟩
      else if keyword = "macro".toList then ⟨.MACRO, args.headD [], args.drop 1⟩
      else if keyword = "set".toList then ⟨.VARIABLE, args.headD [], []⟩
      else ⟨.NONE, [], []⟩

/-! ## Documentation model and per-file pipeline (core engine) -/

/-- Modelled from the spec: a parsed block bound to the construct signature
it documents. -/
structure DocEntry where
  doc_block : DocBlock
  signature : ConstructSignature
deriving DecidableEq

/-- Modelled from the spec: the per-file documentation model: source
identifier, display header name and the entries in source order. -/
structure DocumentModel where
  source_identifier : Str
  header_display_name : Str
  entries : List DocEntry
deriving DecidableEq

/-- Modelled from the spec: turns one raw block into a document entry by
parsing its text and associating the construct that follows it in the
source; an entirely empty block is dropped. -/
def entryOfBlock (source : Str) (b : RawBlock) : Option DocEntry :=
  let db := parseRawBlock b
  if db.description.isEmpty && db.fields.isEmpty then none
  else some ⟨db, associate (source.drop b.end_offset)⟩

/-- Modelled from the spec: the whole per-file pipeline: scan the source,
parse and associate each block, and assemble the document model together
with the surfaced warnings. -/
def processSource (source : Str) (srcId hdr : Str) : DocumentModel × List Str :=
  let s := scanBlocksW source
  (⟨srcId, hdr, s.1.filterMap (entryOfBlock source)⟩, s.2)

/-! ## Renderer (core engine) -/

/-- Renders a parameter list as a call-style argument list. -/
def renderParams (ps : List Str) : Str := List.intercalate [' '] ps

/-- Modelled from the spec: the fixed directive template per construct
kind. -/
def kindDirective : ConstructKind → Str
  | .FUNCTION => ".. function:: ".toList
  | .MACRO => ".. macro:: ".toList
  | .VARIABLE => ".. variable:: ".toList
  | .NONE => []

/-- Modelled from the spec: the signature heading of one entry. -/
def renderSig (s : ConstructSignature) : Str :=
  match s.kind with
  | .NONE => []
  | .VARIABLE => kindDirective s.kind ++ s.name ++ ['\n']
  | _ => kindDirective s.kind ++ s.name ++ ['('] ++ renderParams s.parameters ++ [')'] ++ ['\n']

/-- Modelled from the spec: one field rendered as a markup field list
entry. -/
def renderField (f : FieldTag) : Str := [':'] ++ f.tag_name ++ [' '] ++ f.payload ++ ['\n']

/-- Modelled from the spec: one entry rendered as its directive header,
description paragraph and field list, in order. -/
def renderEntry (e : DocEntry) : Str :=
  renderSig e.signature ++ ['\n'] ++ e.doc_block.description ++ ['\n', '\n'] ++
    (e.doc_block.fields.map renderField).flatten ++ ['\n']

/-- Modelled from the spec: the Renderer: a title derived from the display
header name followed by each entry in model order.  It is a pure function
of the document model. -/
def render (m : DocumentModel) : Str :=
  m.header_display_name ++ ['\n'] ++ List.replicate m.header_display_name.length '#' ++
    ['\n', '\n'] ++ (m.entries.map renderEntry).flatten

/-- Modelled from the spec: rendering within a run context: the run
timestamp is ignored, rendering depends on the model alone. -/
def renderAt (_t : Nat) (m : DocumentModel) : Str := render m

/-- Substring test built from the occurrence search. -/
def containsSub (pat text : Str) : Bool := (findSub pat text).isSome

/-! ## Output persistence (core engine) -/

/-- A file system for the persistence model: existing directories and
files with their contents; paths are component lists. -/
structure FS where
  dirs : List (List Str)
  files : List (List Str × Str)
deriving DecidableEq

/-- The content of the file at a path, if present. -/
def lookupFile (fs : FS) (p : List Str) : Option Str :=
  (fs.files.find? (fun r => r.1 == p)).map (fun r => r.2)

/-- Modelled from the spec: the scoped-write operation of RenderedOutput:
if the destination directory exists the full text is persisted in one
step, otherwise the operation fails producing no file system change at
all (write atomically or to a temp location then move). -/
def write_to_file (fs : FS) (path : List Str) (content : Str) : Option FS :=
  if fs.dirs.contains path.dropLast then
    some ⟨fs.dirs, (path, content) :: fs.files.filter (fun r => !(r.1 == path))⟩
  else none

/-! ## Entry point embedding (main.py) -/

/-- Outcome of one `document(file, ...)` call as seen by the caller:
normal return, process exit via `exit(1)` on a special file (main.py line
84), or an uncaught exception from the per-file pipeline. -/
inductive DocResult where
  | ok
  | fatalExit (code : Nat)
  | raised
deriving DecidableEq

/-- Outcome of a whole `main` run. -/
inductive MainOutcome where
  | exitSuccess
  | exitFailure (code : Nat)
  | uncaught
deriving DecidableEq

/-- The environment a run observes: for each input (numbered), whether the
path is a directory, whether it is a regular file, whether the per-file
pipeline raises, and which warnings processing surfaces. -/
structure Env where
  isDir : Nat → Bool
  isFile : Nat → Bool
  pipelineRaises : Nat → Bool
  warnings : Nat → List Str

/-- Embeds the control flow of `document` (main.py lines 59-105): a
directory or regular file is processed by the pipeline (whose exception,
if any, propagates); any other path prints an error and calls `exit(1)`. -/
def documentOutcome (env : Env) (f : Nat) : DocResult :=
  if env.isDir f then (if env.pipelineRaises f then .raised else .ok)
  else if env.isFile f then (if env.pipelineRaises f then .raised else .ok)
  else .fatalExit 1

/-- Embeds the loop of `main` (main.py lines 54-56): inputs are processed
in order; `exit(1)` or an uncaught exception terminates the run at once,
leaving later inputs unprocessed.  Returns the inputs actually attempted,
the warnings surfaced, and the process outcome. -/
def mainLoop (env : Env) : List Nat → List Nat × (List Str × MainOutcome)
  | [] => ([], ([], .exitSuccess))
  | f :: rest =>
    match documentOutcome env f with
    | .ok =>
      let r := mainLoop env rest
      (f :: r.1, (env.warnings f ++ r.2.1, r.2.2))
    | .fatalExit c => ([f], (env.warnings f, .exitFailure c))
    | .raised => ([f], (env.warnings f, .uncaught))

/-- The same environment with the surfaced warnings replaced. -/
def withWarnings (env : Env) (w : Nat → List Str) : Env :=
  ⟨env.isDir, env.isFile, env.pipelineRaises, w⟩

/-! ## Directory walking and file selection (main.py lines 72-79) -/

mutual
/-- A directory tree: the files directly in the directory and the named
subdirectories. -/
inductive FTree where
  | node : List Str → FForest → FTree
/-- An ordered list of named subdirectories. -/
inductive FForest where
  | fnil : FForest
  | fcons : Str → FTree → FForest → FForest
end

/-- The files directly in the directory. -/
def FTree.files : FTree → List Str
  | .node fs _ => fs

mutual
/-- Embeds `os.walk`: top-down traversal yielding, for each directory, its
path and the files directly in it. -/
def walkTree : List Str → FTree → List (List Str × List Str)
  | root, .node fs sub => (root, fs) :: walkForest root sub
/-- Walks each subdirectory in order. -/
def walkForest : List Str → FForest → List (List Str × List Str)
  | _, .fnil => []
  | root, .fcons name t rest => walkTree (root ++ [name]) t ++ walkForest root rest
end

/-- Embeds the eligibility test of main.py line 76:
`"cmake" == file.split(".")[-1].lower()`. -/
def isCMakeName (name : Str) : Bool :=
  ((splitOnChar '.' name).getLastD []).map Char.toLower == "cmake".toList

/-- The files selected from one walk entry, joined to their directory. -/
def selOf (rf : List Str × List Str) : List (List Str) :=
  (rf.2.filter isCMakeName).map (fun n => rf.1 ++ [n])

/-- The files selected from a list of walk entries, in order. -/
def selAll (l : List (List Str × List Str)) : List (List Str) :=
  (l.map selOf).flatten

/-- Embeds the directory branch of `document` (main.py lines 72-79): walk
the input directory collecting eligible files; without `--recursive` the
loop breaks after the first walk entry, which is the top directory. -/
def collectCMake (input : List Str) (t : FTree) (recursive : Bool) : List (List Str) :=
  if recursive then selAll (walkTree input t)
  else
    match walkTree input t with
    | [] => []
    | rf :: _ => selOf rf

mutual
/-- Specification-side selection: the eligible files of every directory of
the tree, top-down. -/
def specSelect : List Str → FTree → List (List Str)
  | root, .node fs sub => (fs.filter isCMakeName).map (fun n => root ++ [n]) ++ specSelectF root sub
/-- Specification-side selection over a forest. -/
def specSelectF : List Str → FForest → List (List Str)
  | _, .fnil => []
  | root, .fcons name t rest => specSelect (root ++ [name]) t ++ specSelectF root rest
end

/-! ## Output placement (main.py lines 93-105) -/

/-- The directories existing on the output side. -/
structure OutFS where
  dirs : List (List Str)
deriving DecidableEq

/-- An observable output action of the per-file output step: a status line
printed, the rendered document printed to standard output, or a file
written. -/
inductive OutAct where
  | printedMsg
  | printedDoc (text : Str)
  | wrote (path : List Str) (text : Str)
deriving DecidableEq

/-- Embeds main.py line 96: `".".join(basename.split(".")[:-1]) + ".rst"`. -/
def rstName (name : Str) : Str :=
  List.intercalate ['.'] ((splitOnChar '.' name).dropLast) ++ ".rst".toList

/-- Embeds `os.path.relpath(file, input_path)` for a file below the input
directory. -/
def relPath (f base : List Str) : List Str := f.drop base.length

/-- All the ancestor paths of a path, including itself and the root. -/
def pathPrefixes (p : List Str) : List (List Str) :=
  (List.range (p.length + 1)).map (fun k => p.take k)

/-- Embeds `os.makedirs(..., exist_ok=True)`: every missing intermediate
directory of the path is created. -/
def makedirs (fs : OutFS) (p : List Str) : OutFS :=
  ⟨pathPrefixes p ++ fs.dirs⟩

/-- Embeds the output placement of `document` for one processed file
(main.py lines 93-105): with an output path that is an existing directory
the RST file name is computed (preserving the relative subpath when the
input was a directory), intermediate directories are created and the file
is written; with an output path that is not an existing directory only the
status line is printed; with no output path the document is printed. -/
def fileOutput (fs : OutFS) (outputPath : Option (List Str)) (inputIsDir : Bool)
    (inputPath filePath : List Str) (rendered : Str) : List OutAct × OutFS :=
  match outputPath with
  | some op =>
    if fs.dirs.contains op then
      let outFile :=
        if inputIsDir then
          op ++ (relPath filePath inputPath).dropLast ++ [rstName (filePath.getLastD [])]
        else op ++ [rstName (filePath.getLastD [])]
      ([.printedMsg, .printedMsg, .wrote outFile rendered], makedirs fs outFile.dropLast)
    else ([.printedMsg], fs)
  | none => ([.printedDoc rendered], fs)

/-! ## Concrete inputs used by the witnesses -/

/-- An environment where input 1 is a regular well-behaved file and every
other input is a special file (neither directory nor regular file). -/
def cenv : Env := ⟨fun _ => false, fun n => n == 1, fun _ => false, fun _ => []⟩

/-- Two well-formed blocks for the scanner witness. -/
def c5bs : List (Str × Str) :=
  [("x ".toList, "hello world".toList), ("\n\n".toList, " more docs ".toList)]

/-- Trailing text with no start marker for the scanner witness. -/
def c5fin : Str := "trailing text".toList

/-- One well-formed block preceding the unterminated block. -/
def c6bs : List (Str × Str) := [("A".toList, "Doc one".toList)]

/-- The gap before the unterminated start marker. -/
def c6g : Str := "gap".toList

/-- Text after the unterminated start marker, with no end marker. -/
def c6tail : Str := " never closed".toList

/-- The end-to-end example source: a block for `greet` followed by the
function declaration with a body. -/
def c7src : Str :=
  ("#[[[\n# Greets a person.\n# :param name: the person\x27s name\n#]]\n" ++
   "function(greet name)\n    message(hello)\nendfunction()\n").toList

/-- A file system with one output directory and one pre-existing file. -/
def c2fs : FS :=
  ⟨[["out".toList]], [(["out".toList, "old.rst".toList], "old".toList)]⟩

/-- The destination path of the persistence witness. -/
def c2path : List Str := ["out".toList, "a.rst".toList]

/-- The content of the persistence witness. -/
def c2text : Str := "hello".toList

/-! ### Scanner lemmas -/

theorem begins_self (pat rest : Str) : begins pat (pat ++ rest) = true := by
  induction pat with
  | nil => rfl
  | cons p ps ih => simp [begins, ih]

theorem begins_append_left {pat : Str} (b : Str) :
    ∀ a : Str, pat.length ≤ a.length → begins pat (a ++ b) = begins pat a := by
  induction pat with
  | nil => intro a _; rfl
  | cons p ps ih =>
    intro a ha
    cases a with
    | nil => simp at ha
    | cons x xs =>
      simp only [List.cons_append, begins, List.append_eq]
      rw [ih xs (by simpa using ha)]

theorem findSub_self (pat x : Str) : findSub pat (pat ++ x) = some 0 := by
  cases pat with
  | nil =>
    cases x with
    | nil => rfl
    | cons c cs => simp [findSub, begins]
  | cons p ps =>
    have h : begins (p :: ps) ((p :: ps) ++ x) = true := begins_self _ _
    simp only [List.cons_append] at h ⊢
    simp [findSub, h]

theorem findSub_shift {pat : Str} :
    ∀ (g t : Str), (∀ k, k < g.length → begins pat ((g ++ t).drop k) = false) →
      findSub pat (g ++ t) = (findSub pat t).map (fun n => n + g.length) := by
  intro g
  induction g with
  | nil =>
    intro t _
    cases h : findSub pat t <;> simp [h]
  | cons c g' ih =>
    intro t hk
    have h0 : begins pat (c :: (g' ++ t)) = false := by
      have := hk 0 (by simp)
      simpa using this
    simp only [List.cons_append, findSub, List.append_eq, h0, if_neg]
    rw [ih t (fun k hkk => by
      have := hk (k + 1) (by simpa using Nat.succ_lt_succ hkk)
      simpa using this)]
    cases h : findSub pat t with
    | none => simp [h]
    | some v =>
      simp [h]
      omega

theorem findSub_mid {pat : Str} (g x : Str)
    (hg : ∀ k, k < g.length → begins pat ((g ++ pat).drop k) = false) :
    findSub pat (g ++ (pat ++ x)) = some g.length := by
  rw [findSub_shift g (pat ++ x) ?cond]
  · rw [findSub_self]
    simp
  case cond =>
    intro k hk
    have hassoc : g ++ (pat ++ x) = (g ++ pat) ++ x := by simp [List.append_assoc]
    rw [hassoc]
    have hdrop : ((g ++ pat) ++ x).drop k = (g ++ pat).drop k ++ x := by
      have h0 : k ≤ (g ++ pat).length := by
        simp [List.length_append]; omega
      rw [List.drop_append_eq_append_drop, Nat.sub_eq_zero_of_le h0, List.drop_zero]
    rw [hdrop]
    rw [begins_append_left x ((g ++ pat).drop k) (by
      simp [List.length_drop, List.length_append]; omega)]
    exact hg k hk

theorem drop_len_append {a : Str} (b : Str) (n : Nat) (h : n = a.length) :
    (a ++ b).drop n = b := by
  subst h; exact List.drop_left a b

theorem take_len_append {a : Str} (b : Str) (n : Nat) (h : n = a.length) :
    (a ++ b).take n = a := by
  subst h; exact List.take_left a b

theorem mkSource_nil (fin : Str) : mkSource [] fin = fin := by
  simp [mkSource]

theorem mkSource_cons (p : Str × Str) (bs : List (Str × Str)) (fin : Str) :
    mkSource (p :: bs) fin =
      p.1 ++ (startMarker ++ (p.2 ++ (endMarker ++ mkSource bs fin))) := by
  simp [mkSource, List.append_assoc]

theorem totalLen_cons (p : Str × Str) (bs : List (Str × Str)) :
    totalLen (p :: bs) = blockLen p + totalLen bs := by
  simp [totalLen]

theorem mkSource_length (bs : List (Str × Str)) (fin : Str) :
    (mkSource bs fin).length = totalLen bs + fin.length := by
  induction bs with
  | nil => simp [mkSource, totalLen]
  | cons p rest ih =>
    rw [mkSource_cons, totalLen_cons]
    simp only [List.length_append, blockLen]
    omega

theorem length_le_totalLen (bs : List (Str × Str)) : bs.length ≤ totalLen bs := by
  induction bs with
  | nil => simp [totalLen]
  | cons p rest ih =>
    rw [totalLen_cons]
    have : 1 ≤ blockLen p := by
      simp [blockLen, startMarker, endMarker]
    simp only [List.length_cons]
    omega

theorem scanGo_mkSource (fuel : Nat) (fin : Str) :
    ∀ (bs : List (Str × Str)), blocksOkay bs → ∀ pos,
      scanGo (fuel + bs.length) (mkSource bs fin) pos =
        (expectedBlocks bs pos ++ (scanGo fuel fin (pos + totalLen bs)).1,
         (scanGo fuel fin (pos + totalLen bs)).2) := by
  intro bs
  induction bs with
  | nil =>
    intro _ pos
    simp [mkSource_nil, expectedBlocks, totalLen]
  | cons hd bsRest ih =>
    obtain ⟨g, inr⟩ := hd
    intro hok pos
    have hg : gapOkay g := (hok (g, inr) (by simp)).1
    have hi : innerOkay inr := (hok (g, inr) (by simp)).2
    have hrest : blocksOkay bsRest := fun p hp => hok p (by simp [hp])
    rw [mkSource_cons]
    show scanGo ((fuel + bsRest.length) + 1)
        (g ++ (startMarker ++ (inr ++ (endMarker ++ mkSource bsRest fin)))) pos = _
    have h1 : findSub startMarker
        (g ++ (startMarker ++ (inr ++ (endMarker ++ mkSource bsRest fin)))) = some g.length :=
      findSub_mid g _ hg
    have h2 : (g ++ (startMarker ++ (inr ++ (endMarker ++ mkSource bsRest fin)))).drop
        (g.length + startMarker.length) = inr ++ (endMarker ++ mkSource bsRest fin) := by
      have : g ++ (startMarker ++ (inr ++ (endMarker ++ mkSource bsRest fin)))
          = (g ++ startMarker) ++ (inr ++ (endMarker ++ mkSource bsRest fin)) := by
        simp [List.append_assoc]
      rw [this]
      exact drop_len_append _ _ (by simp [List.length_append])
    have h3 : findSub endMarker (inr ++ (endMarker ++ mkSource bsRest fin)) = some inr.length :=
      findSub_mid inr _ hi
    have h4 : (inr ++ (endMarker ++ mkSource bsRest fin)).take inr.length = inr :=
      take_len_append _ _ rfl
    have h5 : (inr ++ (endMarker ++ mkSource bsRest fin)).drop (inr.length + endMarker.length)
        = mkSource bsRest fin := by
      have : inr ++ (endMarker ++ mkSource bsRest fin)
          = (inr ++ endMarker) ++ mkSource bsRest fin := by
        simp [List.append_assoc]
      rw [this]
      exact drop_len_append _ _ (by simp [List.length_append])
    simp only [scanGo, h1, h2, h3, h4, h5]
    rw [ih hrest (pos + g.length + startMarker.length + inr.length + endMarker.length)]
    have htot : pos + g.length + startMarker.length + inr.length + endMarker.length
        + totalLen bsRest = pos + totalLen ((g, inr) :: bsRest) := by
      rw [totalLen_cons]
      simp [blockLen]
      omega
    rw [htot]
    simp [expectedBlocks]

theorem expectedBlocks_length : ∀ (bs : List (Str × Str)) (pos : Nat),
    (expectedBlocks bs pos).length = bs.length := by
  intro bs
  induction bs with
  | nil => intro pos; rfl
  | cons hd rest ih =>
    obtain ⟨g, inr⟩ := hd
    intro pos
    simp [expectedBlocks, ih]

theorem expectedBlocks_mem_start : ∀ (bs : List (Str × Str)) (pos : Nat) (b : RawBlock),
    b ∈ expectedBlocks bs pos → pos ≤ b.start_offset := by
  intro bs
  induction bs with
  | nil => intro pos b hb; simp [expectedBlocks] at hb
  | cons hd rest ih =>
    obtain ⟨g, inr⟩ := hd
    intro pos b hb
    simp only [expectedBlocks, List.mem_cons] at hb
    rcases hb with h | h
    · subst h; simp
    · have := ih _ b h; omega

theorem expectedBlocks_chain : ∀ (bs : List (Str × Str)) (pos : Nat),
    List.Chain' (fun a b => a.end_offset ≤ b.start_offset) (expectedBlocks bs pos) := by
  intro bs
  induction bs with
  | nil => intro pos; simp [expectedBlocks]
  | cons hd rest ih =>
    obtain ⟨g, inr⟩ := hd
    intro pos
    simp only [expectedBlocks]
    rw [List.chain'_cons']
    refine ⟨?_, ih _⟩
    intro b hb
    have hmem : b ∈ expectedBlocks rest
        (pos + g.length + startMarker.length + inr.length + endMarker.length) :=
      List.mem_of_mem_head? hb
    have := expectedBlocks_mem_start rest _ b hmem
    simp
    omega

theorem scanBlocksW_wellformed (bs : List (Str × Str)) (fin : Str) (hbs : blocksOkay bs)
    (hfin : findSub startMarker fin = none) :
    scanBlocksW (mkSource bs fin) = (expectedBlocks bs 0, []) := by
  unfold scanBlocksW
  have hle : bs.length ≤ totalLen bs := length_le_totalLen bs
  have hL : (mkSource bs fin).length = totalLen bs + fin.length := mkSource_length bs fin
  have hfuel : ((totalLen bs - bs.length + fin.length) + 1) + bs.length
      = (mkSource bs fin).length + 1 := by omega
  rw [← hfuel, scanGo_mkSource _ fin bs hbs 0]
  have hstep : scanGo ((totalLen bs - bs.length + fin.length) + 1) fin (0 + totalLen bs)
      = ([], []) := by
    simp [scanGo, hfin]
  rw [hstep]
  simp

theorem scanBlocksW_unterminated (bs : List (Str × Str)) (g tail : Str)
    (hbs : blocksOkay bs) (hg : gapOkay g) (htail : findSub endMarker tail = none) :
    scanBlocksW (mkSource bs (g ++ (startMarker ++ tail))) =
      (expectedBlocks bs 0, [unterminatedWarning]) := by
  unfold scanBlocksW
  have hle : bs.length ≤ totalLen bs := length_le_totalLen bs
  have hL : (mkSource bs (g ++ (startMarker ++ tail))).length
      = totalLen bs + (g ++ (startMarker ++ tail)).length :=
    mkSource_length bs (g ++ (startMarker ++ tail))
  have hfuel : ((totalLen bs - bs.length + (g ++ (startMarker ++ tail)).length) + 1) + bs.length
      = (mkSource bs (g ++ (startMarker ++ tail))).length + 1 := by omega
  rw [← hfuel, scanGo_mkSource _ (g ++ (startMarker ++ tail)) bs hbs 0]
  have h1 : findSub startMarker (g ++ (startMarker ++ tail)) = some g.length :=
    findSub_mid g tail hg
  have h2 : (g ++ (startMarker ++ tail)).drop (g.length + startMarker.length) = tail := by
    have : g ++ (startMarker ++ tail) = (g ++ startMarker) ++ tail := by
      simp [List.append_assoc]
    rw [this]
    exact drop_len_append _ _ (by simp [List.length_append])
  have hstep : scanGo ((totalLen bs - bs.length + (g ++ (startMarker ++ tail)).length) + 1)
      (g ++ (startMarker ++ tail)) (0 + totalLen bs) = ([], [unterminatedWarning]) := by
    simp [scanGo, h1, h2, htail]
  rw [hstep]
  simp

/-- C5: on a source text made of well-formed, non-nested documentation
blocks, the Block Scanner yields exactly one RawBlock per block, in order
of appearance, with start and end offsets at the actual positions of the
delimiters, and no two yielded blocks overlap. -/
theorem scanner_wellformed_blocks (bs : List (Str × Str)) (fin : Str)
    (hbs : blocksOkay bs) (hfin : findSub startMarker fin = none) :
    scanBlocksW (mkSource bs fin) = (expectedBlocks bs 0, []) ∧
    (expectedBlocks bs 0).length = bs.length ∧
    List.Chain' (fun a b => a.end_offset ≤ b.start_offset) (expectedBlocks bs 0) :=
  ⟨scanBlocksW_wellformed bs fin hbs hfin, expectedBlocks_length bs 0, expectedBlocks_chain bs 0⟩

/-- Witness for C5: the scanner theorem applied to a concrete two-block
source. -/
theorem scanner_wellformed_blocks_witness :
    scanBlocksW (mkSource c5bs c5fin) = (expectedBlocks c5bs 0, []) ∧
    (expectedBlocks c5bs 0).length = c5bs.length ∧
    List.Chain' (fun a b => a.end_offset ≤ b.start_offset) (expectedBlocks c5bs 0) :=
  scanner_wellformed_blocks c5bs c5fin (by decide) (by decide)

/-- C6: a source ending in an unterminated block produces no DocEntry for
that block — the model entries are exactly those of the preceding
well-formed blocks — and the unterminated-block warning is surfaced; the
pipeline is a total function so no exception escapes. -/
theorem pipeline_unterminated_block (bs : List (Str × Str)) (g tail srcId hdr : Str)
    (hbs : blocksOkay bs) (hg : gapOkay g) (htail : findSub endMarker tail = none) :
    (processSource (mkSource bs (g ++ (startMarker ++ tail))) srcId hdr).1.entries =
      (expectedBlocks bs 0).filterMap
        (entryOfBlock (mkSource bs (g ++ (startMarker ++ tail)))) ∧
    (processSource (mkSource bs (g ++ (startMarker ++ tail))) srcId hdr).2 =
      [unterminatedWarning] := by
  have h := scanBlocksW_unterminated bs g tail hbs hg htail
  constructor
  · simp [processSource, h]
  · simp [processSource, h]

/-- Witness for C6: the unterminated-block theorem applied to a concrete
source with one well-formed block followed by an unterminated one. -/
theorem pipeline_unterminated_block_witness :
    (processSource (mkSource c6bs (c6g ++ (startMarker ++ c6tail)))
        "f.cmake".toList "f".toList).1.entries =
      (expectedBlocks c6bs 0).filterMap
        (entryOfBlock (mkSource c6bs (c6g ++ (startMarker ++ c6tail)))) ∧
    (processSource (mkSource c6bs (c6g ++ (startMarker ++ c6tail)))
        "f.cmake".toList "f".toList).2 = [unterminatedWarning] :=
  pipeline_unterminated_block c6bs c6g c6tail "f.cmake".toList "f".toList
    (by decide) (by decide) (by decide)

/-- C7: the end-to-end example: a block with inner text
`Greets a person.` / `:param name: ...` immediately followed by
`function(greet name)` with a body yields a single FUNCTION entry named
`greet` with parameter list `name`, the expected description and param
field, and the rendered output contains the name, a parameter field entry
for `name`, and the description text. -/
theorem pipeline_greet_example :
    (processSource c7src "greet.cmake".toList "greet".toList).1.entries =
      [⟨⟨"Greets a person.".toList,
         [⟨"param".toList, "name: the person\x27s name".toList⟩], (0, 60)⟩,
        ⟨ConstructKind.FUNCTION, "greet".toList, ["name".toList]⟩⟩] ∧
    containsSub "greet".toList
      (render (processSource c7src "greet.cmake".toList "greet".toList).1) = true ∧
    containsSub ":param name:".toList
      (render (processSource c7src "greet.cmake".toList "greet".toList).1) = true ∧
    containsSub "Greets a person.".toList
      (render (processSource c7src "greet.cmake".toList "greet".toList).1) = true ∧
    (processSource c7src "greet.cmake".toList "greet".toList).2 = [] := by
  refine ⟨?_, ?_, ?_, ?_, ?_⟩ <;> rfl

/-- C3: rendering is a deterministic function of the document model alone:
rendering the same model in any two run contexts, or twice in the same
one, yields identical output text. -/
theorem render_deterministic (t1 t2 : Nat) (m : DocumentModel) :
    renderAt t1 m = renderAt t2 m ∧ render m = render m :=
  ⟨rfl, rfl⟩

theorem find_filter_ne (l : List (List Str × Str)) (p q : List Str) (hpq : q ≠ p) :
    (l.filter (fun r => !(r.1 == p))).find? (fun r => r.1 == q) =
      l.find? (fun r => r.1 == q) := by
  induction l with
  | nil => rfl
  | cons r l' ih =>
    by_cases hr : r.1 = p
    · have hb : (r.1 == p) = true := by simp [hr]
      have hq : (r.1 == q) = false := by
        simp only [beq_eq_false_iff_ne, ne_eq, hr]
        intro he
        exact hpq he.symm
      simp [List.filter_cons, hb, List.find?_cons, hq, ih]
    · have hb : (r.1 == p) = false := by simp [hr]
      cases hq : (r.1 == q) <;>
        simp [List.filter_cons, hb, List.find?_cons, hq, ih]

/-- C2: the persistence operation of RenderedOutput either fully succeeds
— the destination afterwards holds exactly the in-memory serialization and
every other file is unchanged — or fails cleanly with no file-system
change, and it fails exactly when the destination directory does not
exist. -/
theorem write_to_file_atomic (fs : FS) (path : List Str) (content : Str) :
    (write_to_file fs path content = none ↔ fs.dirs.contains path.dropLast = false) ∧
    (∀ fs2, write_to_file fs path content = some fs2 →
      lookupFile fs2 path = some content ∧
      ∀ q, q ≠ path → lookupFile fs2 q = lookupFile fs q) := by
  constructor
  · unfold write_to_file
    cases h : fs.dirs.contains path.dropLast <;> simp [h]
  · intro fs2 hw
    unfold write_to_file at hw
    cases h : fs.dirs.contains path.dropLast
    · rw [h] at hw; simp at hw
    · rw [h] at hw
      simp only [if_true] at hw
      injection hw with hw
      subst hw
      constructor
      · simp [lookupFile, List.find?_cons]
      · intro q hq
        have hqb : (path == q) = false := by
          simp only [beq_eq_false_iff_ne, ne_eq]
          intro he
          exact hq he.symm
        simp only [lookupFile, List.find?_cons, hqb]
        rw [find_filter_ne fs.files path q hq]

/-- Witness for C2: the persistence theorem applied to a concrete file
system, destination and content. -/
theorem write_to_file_atomic_witness :
    lookupFile (FS.mk [["out".toList]]
      [(c2path, c2text), (["out".toList, "old.rst".toList], "old".toList)]) c2path
        = some c2text ∧
    lookupFile (FS.mk [["out".toList]]
      [(c2path, c2text), (["out".toList, "old.rst".toList], "old".toList)])
        ["out".toList, "old.rst".toList]
      = lookupFile c2fs ["out".toList, "old.rst".toList] := by
  have h := (write_to_file_atomic c2fs c2path c2text).2
    (FS.mk [["out".toList]]
      [(c2path, c2text), (["out".toList, "old.rst".toList], "old".toList)])
    (by decide)
  exact ⟨h.1, h.2 ["out".toList, "old.rst".toList] (by decide)⟩

/-- C1 counterexample: with input 2 a special file (neither directory nor
regular file) and input 1 a well-behaved regular file, the run over
`[2, 1]` attempts only input 2 and terminates the whole process with exit
status 1: the failure of one file aborts the processing of the remaining
files. -/
theorem main_isolation_cex :
    documentOutcome cenv 1 = .ok ∧ documentOutcome cenv 2 = .fatalExit 1 ∧
    (mainLoop cenv [2, 1]).1 = [2] ∧ (mainLoop cenv [2, 1]).2.2 = .exitFailure 1 := by
  decide

/-- C1 amended: a failure while processing one file aborts the run: when
`document` does not return normally on a file — a special-file input calls
`exit(1)`, a pipeline exception propagates — the remaining files are not
processed and the run does not exit successfully. -/
theorem main_failure_aborts_run (env : Env) (f : Nat) (rest : List Nat)
    (h : documentOutcome env f ≠ .ok) :
    (mainLoop env (f :: rest)).1 = [f] ∧
    (mainLoop env (f :: rest)).2.2 ≠ .exitSuccess := by
  cases hd : documentOutcome env f with
  | ok => exact absurd hd h
  | fatalExit c => simp [mainLoop, hd]
  | raised => simp [mainLoop, hd]

/-- Witness for C1: the abort theorem applied to the concrete environment
with input 2 special. -/
theorem main_failure_aborts_run_witness :
    (mainLoop cenv [2, 1]).1 = [2] ∧
    (mainLoop cenv [2, 1]).2.2 ≠ .exitSuccess :=
  main_failure_aborts_run cenv 2 [1] (by decide)

/-- C4 counterexample: input 1 is processed successfully, yet the run over
`[1, 2]` exits with status 1 because input 2 is a special file: the run
exits unsuccessfully although not every file failed. -/
theorem exit_status_cex :
    documentOutcome cenv 1 = .ok ∧ (mainLoop cenv [1, 2]).2.2 = .exitFailure 1 := by
  decide

/-- C4 amended: warnings surfaced during processing never change the exit
status, and the run exits successfully exactly when every input file is
processed without a fatal error or exception — a single failing input
makes the run exit unsuccessfully even when other files succeed. -/
theorem exit_status_amended (env : Env) (w : Nat → List Str) (inputs : List Nat) :
    (mainLoop (withWarnings env w) inputs).2.2 = (mainLoop env inputs).2.2 ∧
    ((mainLoop env inputs).2.2 = .exitSuccess ↔
      ∀ f ∈ inputs, documentOutcome env f = .ok) := by
  constructor
  · induction inputs with
    | nil => rfl
    | cons f rest ih =>
      have hd : documentOutcome (withWarnings env w) f = documentOutcome env f := rfl
      cases h : documentOutcome env f <;> simp [mainLoop, hd, h, ih]
  · induction inputs with
    | nil => simp [mainLoop]
    | cons f rest ih =>
      cases h : documentOutcome env f with
      | ok => simp [mainLoop, h, ih]
      | fatalExit c => simp [mainLoop, h]
      | raised => simp [mainLoop, h]

/-- Witness for C4: the amended theorem applied to a concrete environment,
warning assignment and input list. -/
theorem exit_status_amended_witness :
    (mainLoop (withWarnings cenv (fun _ => ["w".toList])) [1]).2.2 =
      (mainLoop cenv [1]).2.2 :=
  (exit_status_amended cenv (fun _ => ["w".toList]) [1]).1

theorem selAll_nil : selAll [] = [] := rfl

theorem selAll_cons (rf : List Str × List Str) (l : List (List Str × List Str)) :
    selAll (rf :: l) = selOf rf ++ selAll l := by
  simp [selAll]

theorem selAll_append (a b : List (List Str × List Str)) :
    selAll (a ++ b) = selAll a ++ selAll b := by
  simp [selAll]

theorem selAll_walk (t : FTree) :
    ∀ root, selAll (walkTree root t) = specSelect root t := by
  refine @FTree.rec
    (fun t => ∀ root, selAll (walkTree root t) = specSelect root t)
    (fun f => ∀ root, selAll (walkForest root f) = specSelectF root f)
    ?_ ?_ ?_ t
  · intro fs sub ih root
    simp [walkTree, specSelect, selAll_cons, selOf, ih]
  · intro root
    simp [walkForest, specSelectF, selAll_nil]
  · intro name tr rest ih1 ih2 root
    simp [walkForest, specSelectF, selAll_append, ih1, ih2]

/-- C8: over a directory input, `document` selects exactly the files whose
final dot-separated name component is `cmake` case-insensitively: without
`--recursive` only the files directly in the directory, with it the files
of every subdirectory as well. -/
theorem document_cmake_selection (t : FTree) (input : List Str) :
    collectCMake input t false =
      (t.files.filter isCMakeName).map (fun n => input ++ [n]) ∧
    collectCMake input t true = specSelect input t ∧
    (∀ n : Str, isCMakeName n = true ↔
      ((splitOnChar '.' n).getLastD []).map Char.toLower = "cmake".toList) := by
  refine ⟨?_, ?_, ?_⟩
  · cases t with
    | node fs sub => simp [collectCMake, walkTree, selOf, FTree.files]
  · simp [collectCMake, selAll_walk]
  · intro n
    simp [isCMakeName]

/-- C9: when an output path is given but is not an existing directory at
write time, the per-file output step prints only the status line: the
rendered text is neither written to a file nor printed, no error is
raised, and the file system is unchanged. -/
theorem output_dir_missing_skips (fs : OutFS) (op : List Str) (isD : Bool)
    (inputPath filePath : List Str) (rendered : Str)
    (h : fs.dirs.contains op = false) :
    fileOutput fs (some op) isD inputPath filePath rendered = ([OutAct.printedMsg], fs) := by
  have hm : op ∉ fs.dirs := by simpa using h
  simp [fileOutput, hm]

/-- Witness for C9: the skip theorem applied to a concrete missing output
directory. -/
theorem output_dir_missing_skips_witness :
    fileOutput ⟨[]⟩ (some ["out".toList]) false [] ["a.cmake".toList] "text".toList
      = ([OutAct.printedMsg], (⟨[]⟩ : OutFS)) :=
  output_dir_missing_skips ⟨[]⟩ ["out".toList] false [] ["a.cmake".toList]
    "text".toList (by decide)

theorem getLastD_ne_nil {α : Type} (b : List α) (d1 d2 : α) (hb : b ≠ []) :
    b.getLastD d1 = b.getLastD d2 := by
  cases b with
  | nil => exact absurd rfl hb
  | cons x xs =>
    rw [List.getLastD_eq_getLast?, List.getLastD_eq_getLast?,
      List.getLast?_eq_getLast (x :: xs) (by simp)]
    rfl

theorem getLastD_append {α : Type} (b : List α) (hb : b ≠ []) :
    ∀ (a : List α) (d : α), (a ++ b).getLastD d = b.getLastD d := by
  intro a
  induction a with
  | nil => intro d; rfl
  | cons x xs ih =>
    intro d
    simp only [List.cons_append, List.getLastD_cons]
    rw [ih x]
    exact getLastD_ne_nil b x d hb

theorem splitOnChar_no_sep (c : Char) : ∀ (l : Str), (∀ x ∈ l, x ≠ c) →
    splitOnChar c l = [l] := by
  intro l
  induction l with
  | nil => intro _; rfl
  | cons x xs ih =>
    intro h
    have hx : x ≠ c := h x (by simp)
    have hxs : splitOnChar c xs = [xs] := ih (fun y hy => h y (by simp [hy]))
    simp [splitOnChar, hxs, hx]

theorem take_mem_makedirs (fs : OutFS) (p : List Str) (k : Nat) :
    p.take k ∈ (makedirs fs p).dirs := by
  have hmem : p.take k ∈ pathPrefixes p := by
    rcases Nat.le_total k p.length with hk | hk
    · simp only [pathPrefixes, List.mem_map, List.mem_range]
      exact ⟨k, by omega, rfl⟩
    · have hp : p.take k = p := List.take_of_length_le hk
      rw [hp]
      simp only [pathPrefixes, List.mem_map, List.mem_range]
      exact ⟨p.length, by omega, List.take_length p⟩
  simp only [makedirs, List.mem_append]
  exact Or.inl hmem

/-- C10: with an output path that is an existing directory, the written
file is the output path joined with the input file's basename with its
final dot component replaced by `.rst` (a dotless basename yields `.rst`);
when the input was a directory the relative subpath is preserved beneath
the output path, and every intermediate directory of the output file is
created before the write. -/
theorem output_path_layout (fs : OutFS) (op inputPath : List Str) (sub : List Str)
    (filePath : List Str) (rendered : Str)
    (h : fs.dirs.contains op = true) (hsub : sub ≠ []) :
    fileOutput fs (some op) false inputPath filePath rendered =
      ([.printedMsg, .printedMsg,
        .wrote (op ++ [rstName (filePath.getLastD [])]) rendered],
       makedirs fs (op ++ [rstName (filePath.getLastD [])]).dropLast) ∧
    fileOutput fs (some op) true inputPath (inputPath ++ sub) rendered =
      ([.printedMsg, .printedMsg,
        .wrote (op ++ sub.dropLast ++ [rstName (sub.getLastD [])]) rendered],
       makedirs fs (op ++ sub.dropLast ++ [rstName (sub.getLastD [])]).dropLast) ∧
    (∀ name : Str, (∀ c ∈ name, c ≠ '.') → rstName name = ".rst".toList) ∧
    (∀ p : List Str, ∀ k : Nat, p.take k ∈ (makedirs fs p).dirs) := by
  have hm : op ∈ fs.dirs := by simpa using h
  refine ⟨?_, ?_, ?_, ?_⟩
  · simp [fileOutput, hm]
  · have hrel : relPath (inputPath ++ sub) inputPath = sub := by
      simp [relPath]
    have hor : sub.getLast? = some (sub.getLast hsub) :=
      List.getLast?_eq_getLast sub hsub
    simp [fileOutput, hm, hrel, hor]
  · intro name hname
    simp [rstName, splitOnChar_no_sep '.' name hname]
    rfl
  · intro p k
    exact take_mem_makedirs fs p k

/-- Witness for C10: the layout theorem applied to concrete paths. -/
theorem output_path_layout_witness :
    fileOutput ⟨[["docs".toList]]⟩ (some ["docs".toList]) true ["src".toList]
        (["src".toList] ++ ["sub1".toList, "a.b.cmake".toList]) "R".toList =
      ([.printedMsg, .printedMsg,
        .wrote ["docs".toList, "sub1".toList, "a.b.rst".toList] "R".toList],
       makedirs ⟨[["docs".toList]]⟩ ["docs".toList, "sub1".toList]) ∧
    rstName "Makefile".toList = ".rst".toList ∧
    ["x".toList].take 1 ∈ (makedirs ⟨[["docs".toList]]⟩ ["x".toList]).dirs := by
  have W := output_path_layout ⟨[["docs".toList]]⟩ ["docs".toList] ["src".toList]
    ["sub1".toList, "a.b.cmake".toList] ["f".toList] "R".toList (by decide) (by decide)
  exact ⟨W.2.1, W.2.2.1 "Makefile".toList (by decide), W.2.2.2 ["x".toList] 1⟩
